import Mathlib

/-!
# ToolFramework `Services`: the deadline retry combinator and typed variable access

Shallow embedding of two member templates of `src/ServiceDiscovery/Services.h`:

* `Services::CallForDuration` (lines 84-108), the loop that keeps calling an operation until it
  returns a truthy value, the time budget is spent, or the call counter passes `max_calls`;
* `Services::GetSlowControlValue` (lines 79-81).

## Modelling conventions

* Clock readings are natural numbers of clock ticks, taken relative to `tfirst` (so `tfirst = 0`);
  differences of readings are exact.
  `std::chrono::duration_cast<std::chrono::milliseconds>` is truncating division by the number of
  ticks per millisecond, `Clock.perMs`.
* The operation `func` is observed through what each invocation does: invocation number `k`
  (counting from 0) returns `(func k).ret` and keeps the thread busy for `(func k).ticks` ticks.
* `sleep(1)` keeps the thread for `Clock.sleep1` ticks (POSIX `sleep` counts seconds).
* Reading the clock and the loop bookkeeping take no time: `tfirst` equals the first `tstart`, and
  the next `tstart` equals the previous `tend` plus the pause, when one is taken.
* The type `int` has 32 bits.  The parameter `timeout_ms` is a value of that type (`CInt`).  The
  initialisations `int call_time_ms = ...count()` and `int total_time = ...count()` narrow the
  millisecond count to `int`, and `timeout_ms - total_time` is computed in `int`; both are
  `toInt32`, reduction modulo `2^32` into the range of `int`, which is what the compiled code does.
* `if(ret)` is the contextual conversion to `bool`, the parameter `truthy`.  The declared return
  type is `double`: each `return ret;` converts `ret`, the parameter `toDouble`.
* The outcome carries a ghost log with one record per loop iteration, used to state what the loop
  did (how many invocations, when they started and ended, whether `sleep(1)` ran).
-/

set_option maxRecDepth 20000

namespace Services

/-! ## Data model -/

/-- Clock parameters of the platform: ticks of `high_resolution_clock` per millisecond, and the
number of ticks one `sleep(1)` takes. -/
structure Clock where
  perMs : Nat
  sleep1 : Nat
  perMs_pos : 0 < perMs

/-- What one invocation of `func` does: the value it returns and the ticks between the clock
readings `tstart` and `tend` around it. -/
structure Call (R : Type) where
  ret : R
  ticks : Nat

/-- Ghost record of one loop iteration: the readings `tstart` and `tend` (relative to `tfirst`),
and whether the iteration ended with `sleep(1)`. -/
structure Attempt where
  tstart : Nat
  tend : Nat
  slept : Bool
deriving DecidableEq, Repr

/-- Result of `CallForDuration`: the `double` handed to the caller, the clock reading (relative
to `tfirst`) at the `return`, and the ghost log of the iterations made. -/
structure Outcome (D : Type) where
  ret : D
  elapsed : Nat
  log : List Attempt

/-- Number of invocations of `func` that were made: one per logged iteration. -/
def Outcome.calls {D : Type} (o : Outcome D) : Nat := o.log.length

/-- The local `int max_calls=100;` of `CallForDuration`. -/
def max_calls : Nat := 100

/-- Narrowing of an integer to the 32-bit type `int`: the value congruent modulo `2^32` that lies
between `-2^31` and `2^31 - 1`. -/
def toInt32 (x : Int) : Int := (2147483648 + x) % 4294967296 - 2147483648

/-- A value of the C++ type `int`. -/
structure CInt where
  val : Int
  lo : -2147483648 ≤ val
  hi : val ≤ 2147483647

/-- Conversion of an integer argument to `int`, as when a caller passes its `unsigned int`
timeout. -/
def CInt.ofInt (x : Int) : CInt :=
  ⟨toInt32 x, by unfold toInt32; omega, by unfold toInt32; omega⟩

/-! ## The loop of `CallForDuration` -/

/-- The `while(true)` loop of `CallForDuration`, one unfolding per iteration.  The loop state is
the clock reading `now`, the locals `max_call_time` and `n_calls`, and the ghost `log`. -/
def loop {R D : Type} (c : Clock) (truthy : R → Bool) (toDouble : R → D) (timeout_ms : CInt)
    (func : Nat → Call R)
    (now : Nat) (max_call_time : Int) (n_calls : Nat) (log : List Attempt) : Outcome D :=
  let tstart := now
  let r := func log.length
  let tend := tstart + r.ticks
  if truthy r.ret then ⟨toDouble r.ret, tend, log ++ [⟨tstart, tend, false⟩]⟩
  else
    let call_time_ms : Int := toInt32 (((tend - tstart) / c.perMs : Nat) : Int)
    let max_call_time := if call_time_ms > max_call_time then call_time_ms else max_call_time
    let total_time : Int := toInt32 ((tend / c.perMs : Nat) : Int)
    let time_left := toInt32 (timeout_ms.val - total_time)
    if time_left < 0 ∨ max_call_time > time_left then
      ⟨toDouble r.ret, tend, log ++ [⟨tstart, tend, false⟩]⟩
    else
      let n_calls := n_calls + 1
      if h : n_calls > max_calls then ⟨toDouble r.ret, tend, log ++ [⟨tstart, tend, false⟩]⟩
      else if call_time_ms < 2 then
        loop c truthy toDouble timeout_ms func (tend + c.sleep1) max_call_time n_calls
          (log ++ [⟨tstart, tend, true⟩])
      else
        loop c truthy toDouble timeout_ms func tend max_call_time n_calls
          (log ++ [⟨tstart, tend, false⟩])
termination_by max_calls + 1 - n_calls
decreasing_by all_goals (simp only [max_calls] at *; omega)

/-- Embedding of `double Services::CallForDuration(int timeout_ms, F func, Args&&... args)`: the
loop entered with `max_call_time=0`, `n_calls=0` at clock reading `tfirst`. -/
def CallForDuration {R D : Type} (c : Clock) (truthy : R → Bool) (toDouble : R → D)
    (timeout_ms : CInt) (func : Nat → Call R) : Outcome D :=
  loop c truthy toDouble timeout_ms func 0 0 0 []

/-! ## The schedule the loop follows

These functions describe, from the operation alone, the quantities the loop measures at its
`k`-th invocation provided it gets that far. -/

/-- Latency of invocation `k` in whole milliseconds: the value of `count()` at line 96. -/
def callMs {R : Type} (c : Clock) (func : Nat → Call R) (k : Nat) : Int :=
  (((func k).ticks / c.perMs : Nat) : Int)

/-- The local `call_time_ms` for invocation `k`: the latency narrowed to `int`. -/
def callTimeMs {R : Type} (c : Clock) (func : Nat → Call R) (k : Nat) : Int :=
  toInt32 (callMs c func k)

/-- Ticks of pause after invocation `k` when the loop goes round again. -/
def pauseAfter {R : Type} (c : Clock) (func : Nat → Call R) (k : Nat) : Nat :=
  if callTimeMs c func k < 2 then c.sleep1 else 0

/-- Clock reading at which invocation `k` starts: the latencies of the earlier invocations plus
the pauses between them. -/
def tstartOf {R : Type} (c : Clock) (func : Nat → Call R) : Nat → Nat
  | 0 => 0
  | k + 1 => tstartOf c func k + (func k).ticks + pauseAfter c func k

/-- Clock reading at which invocation `k` ends. -/
def tendOf {R : Type} (c : Clock) (func : Nat → Call R) (k : Nat) : Nat :=
  tstartOf c func k + (func k).ticks

/-- Whole milliseconds elapsed when invocation `k` ends: the value of `count()` at line 98. -/
def totalMs {R : Type} (c : Clock) (func : Nat → Call R) (k : Nat) : Int :=
  ((tendOf c func k / c.perMs : Nat) : Int)

/-- The local `total_time` after invocation `k`: the elapsed milliseconds narrowed to `int`. -/
def totalTime {R : Type} (c : Clock) (func : Nat → Call R) (k : Nat) : Int :=
  toInt32 (totalMs c func k)

/-- The local `time_left` after invocation `k`. -/
def timeLeft {R : Type} (c : Clock) (timeout_ms : CInt) (func : Nat → Call R) (k : Nat) : Int :=
  toInt32 (timeout_ms.val - totalTime c func k)

/-- Largest latency in whole milliseconds among the first `k` invocations (0 when `k = 0`). -/
def maxCallMs {R : Type} (c : Clock) (func : Nat → Call R) : Nat → Int
  | 0 => 0
  | k + 1 =>
    if callMs c func k > maxCallMs c func k then callMs c func k else maxCallMs c func k

/-- The local `max_call_time` once `k` invocations have been measured. -/
def maxCallTime {R : Type} (c : Clock) (func : Nat → Call R) : Nat → Int
  | 0 => 0
  | k + 1 =>
    if callTimeMs c func k > maxCallTime c func k then callTimeMs c func k
    else maxCallTime c func k

/-- Whether the loop goes round again after invocation `k`: the result is falsy, neither abort
test on the time budget fires, and the incremented counter does not exceed `max_calls`. -/
def goesOn {R : Type} (c : Clock) (truthy : R → Bool) (timeout_ms : CInt) (func : Nat → Call R)
    (k : Nat) : Bool :=
  !truthy (func k).ret
    && !(decide (timeLeft c timeout_ms func k < 0)
          || decide (maxCallTime c func (k + 1) > timeLeft c timeout_ms func k))
    && !decide (k + 1 > max_calls)

/-- Log records of the first `k` iterations when the loop went round after each of them. -/
def logUpTo {R : Type} (c : Clock) (func : Nat → Call R) (k : Nat) : List Attempt :=
  (List.range k).map
    (fun i => ⟨tstartOf c func i, tendOf c func i, decide (callTimeMs c func i < 2)⟩)

/-- Outcome when the loop returns from its iteration number `k`. -/
def outcomeAt {R D : Type} (c : Clock) (toDouble : R → D) (func : Nat → Call R) (k : Nat) :
    Outcome D :=
  ⟨toDouble (func k).ret, tendOf c func k,
    logUpTo c func k ++ [⟨tstartOf c func k, tendOf c func k, false⟩]⟩

/-! ## Concrete platforms, result types and operations -/

/-- The nanosecond clock of the usual Linux toolchains, with `sleep(1)` taking one second. -/
def nsClock : Clock := ⟨1000000, 1000000000, by decide⟩

/-- Numeric value of the `double` a `bool` converts to. -/
def doubleOfBool (b : Bool) : Int := if b then 1 else 0

/-- Number of low bits a magnitude `m` loses when it is rounded to the 53 significant bits of a
`double`; `fuel` bounds the search (11 suffices below `2^64`). -/
def sigShift (m : Nat) : Nat → Nat
  | 0 => 0
  | fuel + 1 => if m < 9007199254740992 then 0 else sigShift (m / 2) fuel + 1

/-- Numeric value of the `double` a `long long` converts to: the nearest number with 53
significant bits, ties going to the even significand. -/
def doubleOfLongLong (x : Int) : Int :=
  let m := x.natAbs
  let e := sigShift m 11
  let q := m / 2 ^ e
  let r := m % 2 ^ e
  let up : Bool := decide (2 * r > 2 ^ e) || (decide (2 * r = 2 ^ e) && decide (q % 2 = 1))
  let q2 := if up then q + 1 else q
  if x < 0 then -((q2 * 2 ^ e : Nat) : Int) else ((q2 * 2 ^ e : Nat) : Int)

/-- Truthiness of a `long long`: non-zero. -/
def truthyLongLong (x : Int) : Bool := decide (x ≠ 0)

/-- Truthiness of a `double` given by its numeric value: non-zero. -/
def nonzero (d : Int) : Bool := decide (d ≠ 0)

/-- An operation that fails (returns `false`) on every call, each call taking `ticks` ticks. -/
def alwaysFails (ticks : Nat) : Nat → Call Bool := fun _ => ⟨false, ticks⟩

/-- An operation whose first call fails after 60 ms and whose later calls succeed after 10 ms
(nanosecond ticks). -/
def slowThenOk : Nat → Call Bool := fun k =>
  if k = 0 then ⟨false, 60000000⟩ else ⟨true, 10000000⟩

/-- An operation whose first call fails after 3 ms and whose later calls succeed after 10 ms
(nanosecond ticks). -/
def failsThenOk : Nat → Call Bool := fun k =>
  if k = 0 then ⟨false, 3000000⟩ else ⟨true, 10000000⟩

/-- An operation with a `long long` result that returns `2^53 + 1` after 1 ms on every call. -/
def bigResult : Nat → Call Int := fun _ => ⟨9007199254740993, 1000000⟩

/-! ## Typed value extraction -/

/-- Evaluation of a C++ expression: it yields a value, or it has no defined result. -/
inductive Eval (T : Type) where
  | value (v : T)
  | undefined
deriving DecidableEq, Repr

/-- The member access `p->` on a pointer that may be null: defined only on an entry. -/
def arrow {E : Type} (p : Option E) : Eval E :=
  match p with
  | some e => Eval.value e
  | none => Eval.undefined

/-- Embedding of `Services::GetSlowControlValue<T>(name)`, the expression
`(*sc_vars)[name]->GetValue<T>()`.  The registry lookup `(*sc_vars)[name]` and the typed getter
`GetValue<T>` are declared in `SlowControlCollection.h` and are parameters here: the lookup
yields the entry registered under `name`, or none (a null pointer). -/
def GetSlowControlValue {E T : Type} (sc_vars : String → Option E) (GetValue : E → T)
    (name : String) : Eval T :=
  match arrow (sc_vars name) with
  | Eval.value e => Eval.value (GetValue e)
  | Eval.undefined => Eval.undefined

/-- A registry holding the single numeric variable `pump_speed`, with value 0. -/
def pumpRegistry : String → Option Int := fun name =>
  if name = "pump_speed" then some 0 else none

/-! ## Narrowing to `int` -/

theorem toInt32_range (x : Int) : -2147483648 ≤ toInt32 x ∧ toInt32 x ≤ 2147483647 := by
  unfold toInt32; omega

theorem toInt32_eq_self (x : Int) (h1 : -2147483648 ≤ x) (h2 : x ≤ 2147483647) :
    toInt32 x = x := by
  unfold toInt32; omega

theorem toInt32_sub_toInt32 (a b : Int) : toInt32 (a - toInt32 b) = toInt32 (a - b) := by
  unfold toInt32; omega

/-! ## Unrolling the loop along the schedule -/

theorem logUpTo_length {R : Type} (c : Clock) (func : Nat → Call R) (k : Nat) :
    (logUpTo c func k).length = k := by
  simp [logUpTo]

theorem logUpTo_succ {R : Type} (c : Clock) (func : Nat → Call R) (k : Nat) :
    logUpTo c func (k + 1) =
      logUpTo c func k ++
        [⟨tstartOf c func k, tendOf c func k, decide (callTimeMs c func k < 2)⟩] := by
  simp [logUpTo, List.range_succ]

/-- One iteration of the loop, entered in the state the schedule predicts for invocation `k`. -/
theorem loop_step {R D : Type} (c : Clock) (truthy : R → Bool) (toDouble : R → D) (T : CInt)
    (func : Nat → Call R) (k : Nat) :
    loop c truthy toDouble T func (tstartOf c func k) (maxCallTime c func k) k
        (logUpTo c func k) =
      if goesOn c truthy T func k = true then
        loop c truthy toDouble T func (tstartOf c func (k + 1)) (maxCallTime c func (k + 1))
          (k + 1) (logUpTo c func (k + 1))
      else outcomeAt c toDouble func k := by
  rw [loop]
  simp only [logUpTo_length, Nat.add_sub_cancel_left]
  by_cases hr : truthy (func k).ret = true
  · simp [goesOn, hr, outcomeAt, tendOf]
  · by_cases ht : timeLeft c T func k < 0 ∨ maxCallTime c func (k + 1) > timeLeft c T func k
    · have ht2 := ht
      simp only [timeLeft, totalTime, totalMs, tendOf, maxCallTime, callTimeMs, callMs] at ht2
      simp only [hr, if_neg, Bool.false_eq_true, not_false_eq_true]
      rw [if_pos ht2]
      have : goesOn c truthy T func k = false := by
        simp only [goesOn]
        rcases ht with h | h <;> simp [h]
      simp [this, outcomeAt, tendOf]
    · have ht2 := ht
      simp only [timeLeft, totalTime, totalMs, tendOf, maxCallTime, callTimeMs, callMs] at ht2
      simp only [hr, if_neg, Bool.false_eq_true, not_false_eq_true]
      rw [if_neg ht2]
      by_cases hn : k + 1 > max_calls
      · have : goesOn c truthy T func k = false := by
          simp [goesOn, hn]
        simp [this, hn, outcomeAt, tendOf]
      · have hg : goesOn c truthy T func k = true := by
          simp only [goesOn]
          have h1 : ¬ (timeLeft c T func k < 0) := fun h => ht (Or.inl h)
          have h2 : ¬ (maxCallTime c func (k + 1) > timeLeft c T func k) :=
            fun h => ht (Or.inr h)
          simp [hr, h1, h2, hn]
        rw [dif_neg hn, if_pos hg, logUpTo_succ]
        by_cases hs : callTimeMs c func k < 2
        · have hs2 := hs
          simp only [callTimeMs, callMs] at hs2
          rw [if_pos hs2]
          have e1 : tstartOf c func (k + 1) = tstartOf c func k + (func k).ticks + c.sleep1 := by
            simp only [tstartOf, pauseAfter, if_pos hs]
          have e2 : decide (callTimeMs c func k < 2) = true := decide_eq_true hs
          rw [e1, e2]
          simp only [maxCallTime, callTimeMs, callMs, tendOf]
        · have hs2 := hs
          simp only [callTimeMs, callMs] at hs2
          rw [if_neg hs2]
          have e1 : tstartOf c func (k + 1) = tstartOf c func k + (func k).ticks := by
            simp only [tstartOf, pauseAfter, if_neg hs, Nat.add_zero]
          have e2 : decide (callTimeMs c func k < 2) = false := decide_eq_false hs
          rw [e1, e2]
          simp only [maxCallTime, callTimeMs, callMs, tendOf]

/-- From the predicted state for invocation `k`, the loop returns from the first iteration `K`
after which it does not go round again. -/
theorem loop_runs_to {R D : Type} (c : Clock) (truthy : R → Bool) (toDouble : R → D) (T : CInt)
    (func : Nat → Call R) (K : Nat) (hK : goesOn c truthy T func K = false) :
    ∀ d k, k + d = K → (∀ j, k ≤ j → j < K → goesOn c truthy T func j = true) →
      loop c truthy toDouble T func (tstartOf c func k) (maxCallTime c func k) k
          (logUpTo c func k) =
        outcomeAt c toDouble func K := by
  intro d
  induction d with
  | zero =>
    intro k hk _
    have hkK : k = K := by omega
    subst hkK
    rw [loop_step, hK]
    simp
  | succ d ih =>
    intro k hk hgo
    rw [loop_step, hgo k (Nat.le_refl k) (by omega)]
    simp only [if_true]
    exact ih (k + 1) (by omega) (fun j h1 h2 => hgo j (by omega) h2)

/-- The whole call returns from iteration `K` when the loop goes round after every earlier
iteration and not after `K`. -/
theorem CallForDuration_eq_outcomeAt {R D : Type} (c : Clock) (truthy : R → Bool)
    (toDouble : R → D) (T : CInt) (func : Nat → Call R) (K : Nat)
    (hgo : ∀ j, j < K → goesOn c truthy T func j = true)
    (hK : goesOn c truthy T func K = false) :
    CallForDuration c truthy toDouble T func = outcomeAt c toDouble func K := by
  have h := loop_runs_to c truthy toDouble T func K hK K 0 (by omega) (fun j _ h2 => hgo j h2)
  simpa [CallForDuration, tstartOf, maxCallTime, logUpTo] using h

theorem goesOn_at_max_calls {R : Type} (c : Clock) (truthy : R → Bool) (T : CInt)
    (func : Nat → Call R) : goesOn c truthy T func max_calls = false := by
  simp [goesOn]

theorem goesOn_falsy {R : Type} (c : Clock) (truthy : R → Bool) (T : CInt) (func : Nat → Call R)
    (k : Nat) (h : goesOn c truthy T func k = true) : truthy (func k).ret = false := by
  simp only [goesOn, Bool.and_eq_true, Bool.not_eq_true'] at h
  exact h.1.1

/-- The loop goes round after invocation `k` exactly when the three tests of the source pass,
on the values the `int` locals hold. -/
theorem goesOn_iff {R : Type} (c : Clock) (truthy : R → Bool) (T : CInt) (func : Nat → Call R)
    (k : Nat) :
    goesOn c truthy T func k = true ↔
      truthy (func k).ret = false ∧ 0 ≤ timeLeft c T func k ∧
        maxCallTime c func (k + 1) ≤ timeLeft c T func k ∧ k + 1 ≤ max_calls := by
  simp only [goesOn, Bool.and_eq_true, Bool.not_eq_true', Bool.or_eq_false_iff,
    decide_eq_false_iff_not, not_lt]
  constructor
  · rintro ⟨⟨h1, h2, h3⟩, h4⟩
    exact ⟨h1, h2, h3, by omega⟩
  · rintro ⟨h1, h2, h3, h4⟩
    exact ⟨⟨h1, h2, h3⟩, by omega⟩

/-- Every run has a stopping iteration `K`, at most `max_calls`, and returns from it. -/
theorem exists_stop {R D : Type} (c : Clock) (truthy : R → Bool) (toDouble : R → D) (T : CInt)
    (func : Nat → Call R) :
    ∃ K, K ≤ max_calls ∧ (∀ j, j < K → goesOn c truthy T func j = true) ∧
      goesOn c truthy T func K = false ∧
      CallForDuration c truthy toDouble T func = outcomeAt c toDouble func K := by
  have hex : ∃ K, goesOn c truthy T func K = false :=
    ⟨max_calls, goesOn_at_max_calls c truthy T func⟩
  refine ⟨Nat.find hex, Nat.find_min' hex (goesOn_at_max_calls c truthy T func), ?_,
    Nat.find_spec hex, ?_⟩
  · intro j hj
    have := Nat.find_min hex hj
    simpa using this
  · apply CallForDuration_eq_outcomeAt
    · intro j hj
      have := Nat.find_min hex hj
      simpa using this
    · exact Nat.find_spec hex

theorem outcomeAt_calls {R D : Type} (c : Clock) (toDouble : R → D) (func : Nat → Call R)
    (K : Nat) : (outcomeAt c toDouble func K).calls = K + 1 := by
  simp [outcomeAt, Outcome.calls, logUpTo]

theorem outcomeAt_ret {R D : Type} (c : Clock) (toDouble : R → D) (func : Nat → Call R)
    (K : Nat) : (outcomeAt c toDouble func K).ret = toDouble (func K).ret := rfl

theorem outcomeAt_elapsed {R D : Type} (c : Clock) (toDouble : R → D) (func : Nat → Call R)
    (K : Nat) : (outcomeAt c toDouble func K).elapsed = tendOf c func K := rfl

/-- The record of iteration `k` in the log of a run that returns from iteration `K`. -/
theorem outcomeAt_log {R D : Type} (c : Clock) (toDouble : R → D) (func : Nat → Call R)
    (K k : Nat) (h : k ≤ K) :
    (outcomeAt c toDouble func K).log[k]? =
      some ⟨tstartOf c func k, tendOf c func k, decide (k < K ∧ callTimeMs c func k < 2)⟩ := by
  simp only [outcomeAt]
  rcases Nat.lt_or_eq_of_le h with hlt | heq
  · rw [List.getElem?_append_left (by simpa [logUpTo] using hlt)]
    simp [logUpTo, List.getElem?_range, hlt]
  · subst heq
    rw [List.getElem?_append_right (by simp [logUpTo])]
    simp [logUpTo]

/-- A log record at position `k` of a run that returns from iteration `K`: `k` is at most `K`
and the record is the one the schedule predicts. -/
theorem outcomeAt_log_inv {R D : Type} (c : Clock) (toDouble : R → D) (func : Nat → Call R)
    (K k : Nat) (a : Attempt) (h : (outcomeAt c toDouble func K).log[k]? = some a) :
    k ≤ K ∧
      a = ⟨tstartOf c func k, tendOf c func k, decide (k < K ∧ callTimeMs c func k < 2)⟩ := by
  have hlen : k < (outcomeAt c toDouble func K).log.length := by
    by_contra hge
    rw [List.getElem?_eq_none (by omega)] at h
    exact Option.noConfusion h
  have hcalls := outcomeAt_calls c toDouble func K
  simp only [Outcome.calls] at hcalls
  have hk : k ≤ K := by omega
  rw [outcomeAt_log c toDouble func K k hk] at h
  exact ⟨hk, (Option.some.inj h).symm⟩

/-! ## Monotonicity of the schedule -/

theorem callMs_nonneg {R : Type} (c : Clock) (func : Nat → Call R) (k : Nat) :
    0 ≤ callMs c func k := by
  simp only [callMs]; exact Int.ofNat_nonneg _

theorem totalMs_nonneg {R : Type} (c : Clock) (func : Nat → Call R) (k : Nat) :
    0 ≤ totalMs c func k := by
  simp only [totalMs]; exact Int.ofNat_nonneg _

theorem maxCallMs_nonneg {R : Type} (c : Clock) (func : Nat → Call R) (k : Nat) :
    0 ≤ maxCallMs c func k := by
  induction k with
  | zero => simp [maxCallMs]
  | succ k ih =>
    simp only [maxCallMs]
    split
    · exact callMs_nonneg c func k
    · exact ih

theorem maxCallMs_step {R : Type} (c : Clock) (func : Nat → Call R) (k : Nat) :
    maxCallMs c func k ≤ maxCallMs c func (k + 1) ∧ callMs c func k ≤ maxCallMs c func (k + 1) := by
  simp only [maxCallMs]
  split <;> omega

theorem maxCallMs_mono {R : Type} (c : Clock) (func : Nat → Call R) (j k : Nat) (h : j ≤ k) :
    maxCallMs c func j ≤ maxCallMs c func k := by
  induction k with
  | zero =>
    have : j = 0 := by omega
    subst this; exact le_refl _
  | succ k ih =>
    rcases Nat.lt_or_eq_of_le h with hlt | heq
    · exact le_trans (ih (by omega)) (maxCallMs_step c func k).1
    · subst heq; exact le_refl _

/-- The running maximum bounds every latency so far. -/
theorem callMs_le_maxCallMs {R : Type} (c : Clock) (func : Nat → Call R) (i k : Nat)
    (h : i < k) : callMs c func i ≤ maxCallMs c func k :=
  le_trans (maxCallMs_step c func i).2 (maxCallMs_mono c func (i + 1) k h)

theorem tstartOf_le_tendOf {R : Type} (c : Clock) (func : Nat → Call R) (k : Nat) :
    tstartOf c func k ≤ tendOf c func k := by
  simp [tendOf]

theorem tendOf_le_tstartOf_succ {R : Type} (c : Clock) (func : Nat → Call R) (k : Nat) :
    tendOf c func k ≤ tstartOf c func (k + 1) := by
  simp only [tendOf, tstartOf]; omega

theorem tendOf_mono {R : Type} (c : Clock) (func : Nat → Call R) (j k : Nat) (h : j ≤ k) :
    tendOf c func j ≤ tendOf c func k := by
  induction k with
  | zero =>
    have : j = 0 := by omega
    subst this; exact le_refl _
  | succ k ih =>
    rcases Nat.lt_or_eq_of_le h with hlt | heq
    · exact le_trans (ih (by omega))
        (le_trans (tendOf_le_tstartOf_succ c func k) (tstartOf_le_tendOf c func (k + 1)))
    · subst heq; exact le_refl _

theorem totalMs_mono {R : Type} (c : Clock) (func : Nat → Call R) (j k : Nat) (h : j ≤ k) :
    totalMs c func j ≤ totalMs c func k := by
  simp only [totalMs]
  exact Int.ofNat_le.2 (Nat.div_le_div_right (tendOf_mono c func j k h))

/-! ## When the `int` locals hold the exact millisecond counts -/

/-- A latency that fits `int` is stored unchanged in `call_time_ms`. -/
theorem callTimeMs_eq {R : Type} (c : Clock) (func : Nat → Call R) (k : Nat)
    (h : callMs c func k ≤ 2147483647) : callTimeMs c func k = callMs c func k := by
  have h0 := callMs_nonneg c func k
  simp only [callTimeMs]
  exact toInt32_eq_self _ (by omega) h

/-- While every latency fits `int`, `max_call_time` is the largest latency. -/
theorem maxCallTime_eq {R : Type} (c : Clock) (func : Nat → Call R) (k : Nat)
    (h : ∀ i, i < k → callMs c func i ≤ 2147483647) :
    maxCallTime c func k = maxCallMs c func k := by
  induction k with
  | zero => rfl
  | succ k ih =>
    simp only [maxCallTime, maxCallMs]
    rw [ih (fun i hi => h i (by omega)), callTimeMs_eq c func k (h k (by omega))]

/-- When `timeout_ms` minus the elapsed milliseconds is not below the least `int`, `time_left`
holds exactly that difference. -/
theorem timeLeft_eq {R : Type} (c : Clock) (T : CInt) (func : Nat → Call R) (k : Nat)
    (h : -2147483648 ≤ T.val - totalMs c func k) :
    timeLeft c T func k = T.val - totalMs c func k := by
  have h0 := totalMs_nonneg c func k
  have h1 := T.hi
  simp only [timeLeft, totalTime]
  rw [toInt32_sub_toInt32]
  exact toInt32_eq_self _ h (by omega)

/-- Within the range of `int`, the loop goes round after invocation `k` exactly when the result
is falsy, the remaining budget is non-negative and not below the largest latency so far, and the
incremented counter does not exceed `max_calls`. -/
theorem goesOn_iff_of_range {R : Type} (c : Clock) (truthy : R → Bool) (T : CInt)
    (func : Nat → Call R) (k : Nat)
    (hlat : ∀ i, i ≤ k → callMs c func i ≤ 2147483647)
    (hleft : -2147483648 ≤ T.val - totalMs c func k) :
    goesOn c truthy T func k = true ↔
      truthy (func k).ret = false ∧ 0 ≤ T.val - totalMs c func k ∧
        maxCallMs c func (k + 1) ≤ T.val - totalMs c func k ∧ k + 1 ≤ max_calls := by
  rw [goesOn_iff, timeLeft_eq c T func k hleft,
    maxCallTime_eq c func (k + 1) (fun i hi => hlat i (by omega))]

/-- Whole milliseconds `m` have passed at tick `x` only if `x` is below `(m + 1)` milliseconds. -/
theorem ticks_lt_of_ms_le (c : Clock) (x : Nat) (m : Int)
    (h : ((x / c.perMs : Nat) : Int) ≤ m) : (x : Int) < (m + 1) * (c.perMs : Int) := by
  have h1 : x < c.perMs * (x / c.perMs + 1) := Nat.lt_mul_div_succ x c.perMs_pos
  have h2 : (x : Int) < (c.perMs : Int) * (((x / c.perMs : Nat) : Int) + 1) := by
    exact_mod_cast h1
  have h3 : (0 : Int) ≤ (c.perMs : Int) := Int.ofNat_nonneg _
  have h4 : (c.perMs : Int) * (((x / c.perMs : Nat) : Int) + 1) ≤ (c.perMs : Int) * (m + 1) :=
    Int.mul_le_mul_of_nonneg_left (by omega) h3
  rw [Int.mul_comm (m + 1)]
  omega

/-- A tick below `m` milliseconds shows fewer than `m` whole milliseconds. -/
theorem ms_lt_of_ticks_lt (c : Clock) (x : Nat) (m : Int)
    (h : (x : Int) < m * (c.perMs : Int)) : ((x / c.perMs : Nat) : Int) < m := by
  by_contra hge
  have hge2 : m ≤ ((x / c.perMs : Nat) : Int) := by omega
  have h1 : (x / c.perMs) * c.perMs ≤ x := Nat.div_mul_le_self x c.perMs
  have h2 : ((x / c.perMs : Nat) : Int) * (c.perMs : Int) ≤ (x : Int) := by exact_mod_cast h1
  have h3 : (0 : Int) ≤ (c.perMs : Int) := Int.ofNat_nonneg _
  have h4 : m * (c.perMs : Int) ≤ ((x / c.perMs : Nat) : Int) * (c.perMs : Int) :=
    Int.mul_le_mul_of_nonneg_right hge2 h3
  omega

/-- An operation that never returns truthy is invoked `max_calls + 1` times when the timeout
covers the elapsed milliseconds after invocation number `max_calls` (counting from 1) plus the
largest latency measured until then. -/
theorem calls_of_large_timeout {R D : Type} (c : Clock) (truthy : R → Bool) (toDouble : R → D)
    (T : CInt) (func : Nat → Call R) (hfalsy : ∀ k, truthy (func k).ret = false)
    (hT : totalMs c func (max_calls - 1) + maxCallMs c func max_calls ≤ T.val) :
    (CallForDuration c truthy toDouble T func).calls = max_calls + 1 := by
  have hhi := T.hi
  have htot := totalMs_nonneg c func (max_calls - 1)
  have hgo : ∀ j, j < max_calls → goesOn c truthy T func j = true := by
    intro j hj
    have h1 := totalMs_mono c func j (max_calls - 1) (by omega)
    have h2 := maxCallMs_mono c func (j + 1) max_calls (by omega)
    have h3 := maxCallMs_nonneg c func (j + 1)
    rw [goesOn_iff_of_range c truthy T func j
      (fun i hi => by
        have := callMs_le_maxCallMs c func i max_calls (by omega)
        omega)
      (by omega)]
    exact ⟨hfalsy j, by omega, by omega, by omega⟩
  rw [CallForDuration_eq_outcomeAt c truthy toDouble T func max_calls hgo
    (goesOn_at_max_calls c truthy T func), outcomeAt_calls]

/-- With a timeout `T ≥ 0` and every latency between 2 ms and the largest `int`, every attempt of
a run starts no later than `T` milliseconds after the first. -/
theorem starts_within {R : Type} (c : Clock) (truthy : R → Bool) (T : CInt)
    (func : Nat → Call R) (hT : 0 ≤ T.val)
    (hlat : ∀ k, 2 ≤ callMs c func k ∧ callMs c func k ≤ 2147483647) (K : Nat)
    (hgo : ∀ j, j < K → goesOn c truthy T func j = true) :
    ∀ k, k ≤ K → (tstartOf c func k : Int) ≤ T.val * (c.perMs : Int) := by
  have hp : (0 : Int) ≤ (c.perMs : Int) := Int.ofNat_nonneg _
  intro k
  induction k with
  | zero =>
    intro _
    simp only [tstartOf, Nat.cast_zero]
    exact Int.mul_nonneg hT hp
  | succ j ih =>
    intro hj
    have hstart := ih (by omega)
    have hl := hlat j
    have hticks : (func j).ticks < 2147483648 * c.perMs := by
      have h1 : (func j).ticks / c.perMs < 2147483648 := by
        have := hl.2
        simp only [callMs] at this
        omega
      exact (Nat.div_lt_iff_lt_mul c.perMs_pos).1 h1
    have hticks2 : ((func j).ticks : Int) < 2147483648 * (c.perMs : Int) := by
      exact_mod_cast hticks
    have hend : (tendOf c func j : Int) < (T.val + 2147483648) * (c.perMs : Int) := by
      simp only [tendOf]
      push_cast
      rw [Int.add_mul]
      omega
    have htot : totalMs c func j < T.val + 2147483648 := ms_lt_of_ticks_lt c _ _ hend
    have hg := (goesOn_iff_of_range c truthy T func j (fun i _ => (hlat i).2) (by omega)).1
      (hgo j (by omega))
    have h1 := (maxCallMs_step c func j).2
    have h3 : totalMs c func j ≤ T.val - 2 := by omega
    have h4 := ticks_lt_of_ms_le c (tendOf c func j) (T.val - 2) h3
    have h5 : tstartOf c func (j + 1) = tendOf c func j := by
      simp only [tstartOf, tendOf, pauseAfter]
      rw [callTimeMs_eq c func j hl.2, if_neg (by omega)]
      rfl
    rw [h5]
    have h6 : (T.val - 2 + 1) * (c.perMs : Int) ≤ T.val * (c.perMs : Int) :=
      Int.mul_le_mul_of_nonneg_right (by omega) hp
    omega

/-! ## Closed forms for an operation that always fails with one fixed latency -/

theorem tstartOf_alwaysFails (c : Clock) (t k : Nat) :
    tstartOf c (alwaysFails t) k = k * (t + pauseAfter c (alwaysFails t) 0) := by
  induction k with
  | zero => simp [tstartOf]
  | succ k ih =>
    have hp : pauseAfter c (alwaysFails t) k = pauseAfter c (alwaysFails t) 0 := rfl
    have ht : (alwaysFails t k).ticks = t := rfl
    simp only [tstartOf, ih, hp, ht]
    ring

theorem totalMs_alwaysFails (c : Clock) (t k : Nat) :
    totalMs c (alwaysFails t) k =
      (((k * (t + pauseAfter c (alwaysFails t) 0) + t) / c.perMs : Nat) : Int) := by
  have ht : (alwaysFails t k).ticks = t := rfl
  simp only [totalMs, tendOf, tstartOf_alwaysFails, ht]

theorem maxCallMs_alwaysFails (c : Clock) (t k : Nat) :
    maxCallMs c (alwaysFails t) (k + 1) = callMs c (alwaysFails t) 0 := by
  induction k with
  | zero =>
    have h0 := callMs_nonneg c (alwaysFails t) 0
    simp only [maxCallMs]
    split <;> omega
  | succ k ih =>
    have hc : callMs c (alwaysFails t) (k + 1) = callMs c (alwaysFails t) 0 := rfl
    conv_lhs => rw [maxCallMs]
    rw [ih, hc]
    simp

theorem maxCallTime_alwaysFails (c : Clock) (t k : Nat)
    (h : 0 ≤ callTimeMs c (alwaysFails t) 0) :
    maxCallTime c (alwaysFails t) (k + 1) = callTimeMs c (alwaysFails t) 0 := by
  induction k with
  | zero =>
    simp only [maxCallTime]
    split <;> omega
  | succ k ih =>
    have hc : callTimeMs c (alwaysFails t) (k + 1) = callTimeMs c (alwaysFails t) 0 := rfl
    conv_lhs => rw [maxCallTime]
    rw [ih, hc]
    simp

/-- The run with a timeout of 2000 ms of an operation that always fails after 3 ms returns from
its iteration number 100 (counting from 0). -/
theorem run_2000_fails_3ms :
    CallForDuration nsClock id doubleOfBool (CInt.ofInt 2000) (alwaysFails 3000000) =
      outcomeAt nsClock doubleOfBool (alwaysFails 3000000) max_calls := by
  have hp : pauseAfter nsClock (alwaysFails 3000000) 0 = 0 := by decide
  have hc : callMs nsClock (alwaysFails 3000000) 0 = 3 := by decide
  have hv : (CInt.ofInt 2000).val = 2000 := by decide
  have hgo : ∀ j, j < max_calls →
      goesOn nsClock id (CInt.ofInt 2000) (alwaysFails 3000000) j = true := by
    intro j hj
    have hlat : ∀ i, i ≤ j → callMs nsClock (alwaysFails 3000000) i ≤ 2147483647 := by
      intro i _
      have : callMs nsClock (alwaysFails 3000000) i = 3 := hc
      omega
    have htot : totalMs nsClock (alwaysFails 3000000) j =
        (((j * (3000000 + 0) + 3000000) / 1000000 : Nat) : Int) := by
      rw [totalMs_alwaysFails, hp]; rfl
    simp only [max_calls] at hj
    rw [goesOn_iff_of_range nsClock id (CInt.ofInt 2000) (alwaysFails 3000000) j hlat
      (by rw [hv, htot]; omega), maxCallMs_alwaysFails, hc, hv, htot]
    simp only [max_calls]
    refine ⟨rfl, ?_, ?_, by omega⟩ <;> omega
  exact CallForDuration_eq_outcomeAt nsClock id doubleOfBool (CInt.ofInt 2000)
    (alwaysFails 3000000) max_calls hgo (goesOn_at_max_calls _ _ _ _)

/-- The run with a timeout of 50 ms of an operation that always fails after `3 * 10^15` ns (more
than `2^31` ms) returns from its second iteration. -/
theorem run_50_fails_long :
    CallForDuration nsClock id doubleOfBool (CInt.ofInt 50) (alwaysFails 3000000000000000) =
      outcomeAt nsClock doubleOfBool (alwaysFails 3000000000000000) 1 :=
  CallForDuration_eq_outcomeAt nsClock id doubleOfBool (CInt.ofInt 50)
    (alwaysFails 3000000000000000) 1 (by decide) (by decide)

/-! ## Claims about `CallForDuration` -/

/-- C1 as stated fails: an operation with a `long long` result returns the truthy value
`2^53 + 1` on its first call; the call makes that one invocation and hands back its conversion to
`double`, `2^53`, which is not the result of the final invocation. -/
theorem CallForDuration_returned_value_counterexample :
    truthyLongLong (bigResult 0).ret = true ∧
    (CallForDuration nsClock truthyLongLong doubleOfLongLong (CInt.ofInt 1800) bigResult).calls
      = 1 ∧
    (CallForDuration nsClock truthyLongLong doubleOfLongLong (CInt.ofInt 1800) bigResult).ret
      = 9007199254740992 ∧
    (bigResult 0).ret = 9007199254740993 ∧
    (CallForDuration nsClock truthyLongLong doubleOfLongLong (CInt.ofInt 1800) bigResult).ret ≠
      (bigResult ((CallForDuration nsClock truthyLongLong doubleOfLongLong (CInt.ofInt 1800)
        bigResult).calls - 1)).ret := by
  have heq := CallForDuration_eq_outcomeAt nsClock truthyLongLong doubleOfLongLong
    (CInt.ofInt 1800) bigResult 0 (fun j hj => absurd hj (Nat.not_lt_zero j)) (by decide)
  rw [heq, outcomeAt_calls, outcomeAt_ret]
  refine ⟨by decide, rfl, by decide, rfl, by decide⟩

/-- C1 amended: for every timeout and every operation, at least one invocation is made; the
value returned is the result of the final invocation converted to `double`; every invocation
before the final one returned a falsy result; an invocation that returns truthy is the final one
(the operation is not invoked again); and whenever the conversion takes falsy results to zero and
truthy results to non-zero values, the returned value is zero exactly when every invocation made
returned falsy. -/
theorem CallForDuration_stops_at_first_truthy {R D : Type} (c : Clock) (truthy : R → Bool)
    (toDouble : R → D) (T : CInt) (func : Nat → Call R) :
    1 ≤ (CallForDuration c truthy toDouble T func).calls ∧
    (CallForDuration c truthy toDouble T func).ret =
      toDouble (func ((CallForDuration c truthy toDouble T func).calls - 1)).ret ∧
    (∀ i, i + 1 < (CallForDuration c truthy toDouble T func).calls →
      truthy (func i).ret = false) ∧
    (∀ i, i < (CallForDuration c truthy toDouble T func).calls → truthy (func i).ret = true →
      i + 1 = (CallForDuration c truthy toDouble T func).calls) ∧
    (∀ isNonzero : D → Bool, (∀ r, isNonzero (toDouble r) = truthy r) →
      (isNonzero (CallForDuration c truthy toDouble T func).ret = false ↔
        ∀ i, i < (CallForDuration c truthy toDouble T func).calls →
          truthy (func i).ret = false)) := by
  obtain ⟨K, _, hgo, _, heq⟩ := exists_stop c truthy toDouble T func
  rw [heq, outcomeAt_calls, outcomeAt_ret]
  have hfalsy : ∀ i, i + 1 < K + 1 → truthy (func i).ret = false := fun i hi =>
    goesOn_falsy c truthy T func i (hgo i (by omega))
  refine ⟨by omega, by simp, hfalsy, ?_, ?_⟩
  · intro i hi ht
    by_contra hne
    have := hfalsy i (by omega)
    rw [this] at ht
    exact Bool.false_ne_true ht
  · intro isNonzero hconv
    rw [hconv]
    constructor
    · intro hret i hi
      rcases Nat.lt_or_eq_of_le (Nat.le_of_lt_succ hi) with hlt | heq2
      · exact hfalsy i (by omega)
      · rw [heq2]; exact hret
    · intro hall
      exact hall K (by omega)

/-- Witness for C1 amended: with a `bool` result, whose conversion keeps truthiness, the value
returned for an operation that always fails after 3 ms is zero exactly when all invocations made
were falsy. -/
theorem CallForDuration_stops_at_first_truthy_witness :
    (nonzero (CallForDuration nsClock id doubleOfBool (CInt.ofInt 10) (alwaysFails 3000000)).ret
        = false ↔
      ∀ i, i < (CallForDuration nsClock id doubleOfBool (CInt.ofInt 10)
          (alwaysFails 3000000)).calls → id (alwaysFails 3000000 i).ret = false) :=
  (CallForDuration_stops_at_first_truthy nsClock id doubleOfBool (CInt.ofInt 10)
    (alwaysFails 3000000)).2.2.2.2 nonzero (by decide)

/-- C2 as stated fails: with a timeout of 100 ms, an operation whose first call fails after
60 ms and whose second call would succeed after 10 ms has its first truthy result on attempt 2,
which would start at 60 ms and end at a cumulative elapsed time of 70 ms, yet the call returns
the falsy result after one invocation. -/
theorem CallForDuration_first_success_counterexample :
    (id (slowThenOk 0).ret = false ∧ id (slowThenOk 1).ret = true) ∧
    (tendOf nsClock slowThenOk 1 : Int) < 100 * (nsClock.perMs : Int) ∧
    (CallForDuration nsClock id doubleOfBool (CInt.ofInt 100) slowThenOk).calls = 1 ∧
    (CallForDuration nsClock id doubleOfBool (CInt.ofInt 100) slowThenOk).ret =
      doubleOfBool false ∧
    ¬ ((CallForDuration nsClock id doubleOfBool (CInt.ofInt 100) slowThenOk).calls = 2 ∧
        (CallForDuration nsClock id doubleOfBool (CInt.ofInt 100) slowThenOk).ret =
          doubleOfBool (slowThenOk 1).ret) := by
  have heq := CallForDuration_eq_outcomeAt nsClock id doubleOfBool (CInt.ofInt 100) slowThenOk 0
    (fun j hj => absurd hj (Nat.not_lt_zero j)) (by decide)
  rw [heq, outcomeAt_calls, outcomeAt_ret]
  refine ⟨⟨rfl, rfl⟩, by decide, rfl, rfl, ?_⟩
  rintro ⟨h, _⟩
  omega

/-- C2 amended: when the first truthy result comes on attempt `n + 1` with `n + 1 ≤ 100`, and
after each earlier attempt the elapsed whole milliseconds (call latencies plus pauses) plus the
largest call latency so far is at most the timeout, the call returns that truthy result,
converted to `double`, after exactly `n + 1` invocations, at the moment that attempt ends. -/
theorem CallForDuration_returns_first_success {R D : Type} (c : Clock) (truthy : R → Bool)
    (toDouble : R → D) (T : CInt) (func : Nat → Call R) (n : Nat)
    (hfirst : ∀ i, i < n → truthy (func i).ret = false) (hn : truthy (func n).ret = true)
    (hcount : n + 1 ≤ max_calls)
    (hbudget : ∀ i, i < n → totalMs c func i + maxCallMs c func (i + 1) ≤ T.val) :
    (CallForDuration c truthy toDouble T func).calls = n + 1 ∧
    (CallForDuration c truthy toDouble T func).ret = toDouble (func n).ret ∧
    (CallForDuration c truthy toDouble T func).elapsed = tendOf c func n := by
  have hhi := T.hi
  have hgo : ∀ j, j < n → goesOn c truthy T func j = true := by
    intro j hj
    have h1 := hbudget j hj
    have h2 := maxCallMs_nonneg c func (j + 1)
    have h3 := totalMs_nonneg c func j
    rw [goesOn_iff_of_range c truthy T func j
      (fun i hi => by
        have := callMs_le_maxCallMs c func i (j + 1) (by omega)
        omega)
      (by omega)]
    exact ⟨hfirst j hj, by omega, by omega, by omega⟩
  have hstop : goesOn c truthy T func n = false := by
    simp [goesOn, hn]
  rw [CallForDuration_eq_outcomeAt c truthy toDouble T func n hgo hstop]
  exact ⟨outcomeAt_calls c toDouble func n, rfl, rfl⟩

/-- Witness for C2 amended: timeout 100 ms, the first call fails after 3 ms and the second
succeeds: 3 ms elapsed plus 3 ms largest latency fit the timeout, so the success is returned
after two invocations. -/
theorem CallForDuration_returns_first_success_witness :
    (CallForDuration nsClock id doubleOfBool (CInt.ofInt 100) failsThenOk).calls = 2 ∧
    (CallForDuration nsClock id doubleOfBool (CInt.ofInt 100) failsThenOk).ret =
      doubleOfBool true :=
  have h := CallForDuration_returns_first_success nsClock id doubleOfBool (CInt.ofInt 100)
    failsThenOk 1 (by decide) (by decide) (by decide) (by decide)
  ⟨h.1, h.2.1⟩

/-- C3 as stated fails.  With the default timeout of 1800 ms and an operation that always fails
after half a millisecond, the call returns 2001.5 ms after it started (two pauses were taken),
more than 1800 ms plus the latency of any one call.  With a timeout of -5 ms and an operation
that always fails after 3 ms, the call returns after 3 ms, more than -5 ms plus 3 ms. -/
theorem CallForDuration_elapsed_counterexample :
    ((∀ k, id (alwaysFails 500000 k).ret = false) ∧
      (CallForDuration nsClock id doubleOfBool (CInt.ofInt 1800) (alwaysFails 500000)).elapsed
        = 2001500000 ∧
      ¬ ∃ k, ((CallForDuration nsClock id doubleOfBool (CInt.ofInt 1800)
            (alwaysFails 500000)).elapsed : Int) ≤
          (CInt.ofInt 1800).val * (nsClock.perMs : Int) + ((alwaysFails 500000 k).ticks : Int)) ∧
    ((∀ k, id (alwaysFails 3000000 k).ret = false) ∧
      (CallForDuration nsClock id doubleOfBool (CInt.ofInt (-5)) (alwaysFails 3000000)).elapsed
        = 3000000 ∧
      ¬ ∃ k, ((CallForDuration nsClock id doubleOfBool (CInt.ofInt (-5))
            (alwaysFails 3000000)).elapsed : Int) ≤
          (CInt.ofInt (-5)).val * (nsClock.perMs : Int) +
            ((alwaysFails 3000000 k).ticks : Int)) := by
  have heq1 := CallForDuration_eq_outcomeAt nsClock id doubleOfBool (CInt.ofInt 1800)
    (alwaysFails 500000) 2 (by decide) (by decide)
  have heq2 := CallForDuration_eq_outcomeAt nsClock id doubleOfBool (CInt.ofInt (-5))
    (alwaysFails 3000000) 0 (fun j hj => absurd hj (Nat.not_lt_zero j)) (by decide)
  rw [heq1, heq2, outcomeAt_elapsed, outcomeAt_elapsed]
  have he1 : tendOf nsClock (alwaysFails 500000) 2 = 2001500000 := by decide
  have he2 : tendOf nsClock (alwaysFails 3000000) 0 = 3000000 := by decide
  have hv1 : (CInt.ofInt 1800).val = 1800 := by decide
  have hv2 : (CInt.ofInt (-5)).val = -5 := by decide
  have hp : (nsClock.perMs : Int) = 1000000 := rfl
  rw [he1, he2, hv1, hv2, hp]
  refine ⟨⟨fun _ => rfl, rfl, ?_⟩, ⟨fun _ => rfl, rfl, ?_⟩⟩
  · rintro ⟨k, hk⟩
    have ht : ((alwaysFails 500000 k).ticks : Int) = 500000 := rfl
    rw [ht] at hk
    omega
  · rintro ⟨k, hk⟩
    have ht : ((alwaysFails 3000000 k).ticks : Int) = 3000000 := rfl
    rw [ht] at hk
    omega

/-- C3 amended: for every timeout `T ≥ 0` and every operation that returns a falsy result on
every call and whose calls each take at least 2 ms and at most `2^31 - 1` ms, the time from the
start of the first invocation to the return is at most `T` milliseconds plus the latency of the
final call, and the value returned is the conversion of that falsy result. -/
theorem CallForDuration_elapsed_bound {R D : Type} (c : Clock) (truthy : R → Bool)
    (toDouble : R → D) (T : CInt) (func : Nat → Call R) (hT : 0 ≤ T.val)
    (hfalsy : ∀ k, truthy (func k).ret = false)
    (hlat : ∀ k, 2 ≤ callMs c func k ∧ callMs c func k ≤ 2147483647) :
    ((CallForDuration c truthy toDouble T func).elapsed : Int) ≤
      T.val * (c.perMs : Int) +
        ((func ((CallForDuration c truthy toDouble T func).calls - 1)).ticks : Int) ∧
    (CallForDuration c truthy toDouble T func).ret =
      toDouble (func ((CallForDuration c truthy toDouble T func).calls - 1)).ret ∧
    truthy (func ((CallForDuration c truthy toDouble T func).calls - 1)).ret = false := by
  obtain ⟨K, _, hgo, _, heq⟩ := exists_stop c truthy toDouble T func
  rw [heq, outcomeAt_calls, outcomeAt_elapsed, outcomeAt_ret]
  have hstart := starts_within c truthy T func hT hlat K hgo K (le_refl _)
  refine ⟨?_, by simp, hfalsy _⟩
  simp only [tendOf, Nat.add_sub_cancel]
  push_cast
  omega

/-- Witness for C3 amended: timeout 10 ms, every call fails after 3 ms; the run returns no later
than 10 ms plus 3 ms after it started. -/
theorem CallForDuration_elapsed_bound_witness :
    ((CallForDuration nsClock id doubleOfBool (CInt.ofInt 10) (alwaysFails 3000000)).elapsed
        : Int) ≤
      (CInt.ofInt 10).val * (nsClock.perMs : Int) +
        ((alwaysFails 3000000 ((CallForDuration nsClock id doubleOfBool (CInt.ofInt 10)
          (alwaysFails 3000000)).calls - 1)).ticks : Int) :=
  (CallForDuration_elapsed_bound nsClock id doubleOfBool (CInt.ofInt 10) (alwaysFails 3000000)
    (by decide) (fun _ => rfl)
    (fun _ => (by decide : 2 ≤ callMs nsClock (alwaysFails 3000000) 0 ∧
      callMs nsClock (alwaysFails 3000000) 0 ≤ 2147483647))).1

/-- C4 (the code at the failing input): with a timeout of 2000 ms, an operation that always fails
after 3 ms is invoked 101 times, one more than `max_calls`; invocation number 101 starts 300 ms
after the first one. -/
theorem CallForDuration_exceeds_max_calls :
    (CallForDuration nsClock id doubleOfBool (CInt.ofInt 2000) (alwaysFails 3000000)).calls
      = 101 ∧
    max_calls <
      (CallForDuration nsClock id doubleOfBool (CInt.ofInt 2000) (alwaysFails 3000000)).calls ∧
    (CallForDuration nsClock id doubleOfBool (CInt.ofInt 2000) (alwaysFails 3000000)).log[100]? =
      some ⟨300000000, 303000000, false⟩ := by
  rw [run_2000_fails_3ms, outcomeAt_calls]
  refine ⟨rfl, by decide, ?_⟩
  rw [outcomeAt_log _ _ _ max_calls 100 (le_refl _)]
  have hp : pauseAfter nsClock (alwaysFails 3000000) 0 = 0 := by decide
  have hs : tstartOf nsClock (alwaysFails 3000000) 100 = 300000000 := by
    rw [tstartOf_alwaysFails, hp]
  have he : tendOf nsClock (alwaysFails 3000000) 100 = 303000000 := by
    rw [tendOf, hs]; rfl
  rw [hs, he]
  simp [max_calls]

/-- C5 as stated fails: with the timeout at the least `int`, -2147483648 ms, the first call of an
operation that always fails after 3 ms returns a falsy result with a measured latency above the
timeout, yet `timeout_ms - total_time` wraps to a large positive `time_left` and the operation is
invoked 101 times. -/
theorem CallForDuration_overrun_counterexample :
    id (alwaysFails 3000000 0).ret = false ∧
    (CInt.ofInt (-2147483648)).val < callTimeMs nsClock (alwaysFails 3000000) 0 ∧
    (CallForDuration nsClock id doubleOfBool (CInt.ofInt (-2147483648))
      (alwaysFails 3000000)).calls = 101 := by
  have hp : pauseAfter nsClock (alwaysFails 3000000) 0 = 0 := by decide
  have hc : callTimeMs nsClock (alwaysFails 3000000) 0 = 3 := by decide
  have hv : (CInt.ofInt (-2147483648)).val = -2147483648 := by decide
  have hgo : ∀ j, j < max_calls →
      goesOn nsClock id (CInt.ofInt (-2147483648)) (alwaysFails 3000000) j = true := by
    intro j hj
    have htot : totalMs nsClock (alwaysFails 3000000) j =
        (((j * (3000000 + 0) + 3000000) / 1000000 : Nat) : Int) := by
      rw [totalMs_alwaysFails, hp]; rfl
    simp only [max_calls] at hj
    have htot2 : totalMs nsClock (alwaysFails 3000000) j = 3 * (j : Int) + 3 := by
      rw [htot]; omega
    have htt : totalTime nsClock (alwaysFails 3000000) j = 3 * (j : Int) + 3 := by
      simp only [totalTime]
      rw [htot2]
      exact toInt32_eq_self _ (by omega) (by omega)
    have hleft : timeLeft nsClock (CInt.ofInt (-2147483648)) (alwaysFails 3000000) j =
        2147483645 - 3 * (j : Int) := by
      simp only [timeLeft]
      rw [htt, hv]
      unfold toInt32
      omega
    rw [goesOn_iff, maxCallTime_alwaysFails nsClock 3000000 j (by rw [hc]; decide), hc, hleft]
    simp only [max_calls]
    refine ⟨rfl, ?_, ?_, by omega⟩ <;> omega
  rw [CallForDuration_eq_outcomeAt nsClock id doubleOfBool (CInt.ofInt (-2147483648))
    (alwaysFails 3000000) max_calls hgo (goesOn_at_max_calls _ _ _ _), outcomeAt_calls]
  exact ⟨rfl, by decide, rfl⟩

/-- C5 amended: when the first call returns a falsy result after a measured latency greater than
the timeout, and the timeout minus that latency is not below the least `int` (as for every
timeout `T ≥ 0`), exactly one invocation is made, the conversion of its falsy result is returned,
and the return happens when that overrunning call completes. -/
theorem CallForDuration_overrun_not_retried {R D : Type} (c : Clock) (truthy : R → Bool)
    (toDouble : R → D) (T : CInt) (func : Nat → Call R)
    (hfalsy : truthy (func 0).ret = false) (hlate : T.val < callTimeMs c func 0)
    (hrange : -2147483648 ≤ T.val - callTimeMs c func 0) :
    (CallForDuration c truthy toDouble T func).calls = 1 ∧
    (CallForDuration c truthy toDouble T func).ret = toDouble (func 0).ret ∧
    (CallForDuration c truthy toDouble T func).elapsed = (func 0).ticks ∧
    truthy (func ((CallForDuration c truthy toDouble T func).calls - 1)).ret = false := by
  have hstop : goesOn c truthy T func 0 = false := by
    cases hg : goesOn c truthy T func 0
    · rfl
    · have h := (goesOn_iff c truthy T func 0).1 hg
      have h2 : totalTime c func 0 = callTimeMs c func 0 := by
        simp [totalTime, totalMs, tendOf, tstartOf, callTimeMs, callMs]
      have h3 : timeLeft c T func 0 = T.val - callTimeMs c func 0 := by
        simp only [timeLeft]
        rw [h2]
        exact toInt32_eq_self _ hrange (by omega)
      rw [h3] at h
      omega
  have heq := CallForDuration_eq_outcomeAt c truthy toDouble T func 0
    (fun j hj => absurd hj (by omega)) hstop
  rw [heq, outcomeAt_calls]
  refine ⟨rfl, rfl, ?_, hfalsy⟩
  simp [outcomeAt_elapsed, tendOf, tstartOf]

/-- Witness for C5 amended: timeout 50 ms, every call takes 60 ms and fails. -/
theorem CallForDuration_overrun_not_retried_witness :
    (CallForDuration nsClock id doubleOfBool (CInt.ofInt 50) (alwaysFails 60000000)).calls = 1 ∧
    (CallForDuration nsClock id doubleOfBool (CInt.ofInt 50) (alwaysFails 60000000)).ret
      = doubleOfBool false ∧
    (CallForDuration nsClock id doubleOfBool (CInt.ofInt 50) (alwaysFails 60000000)).elapsed
      = 60000000 :=
  have h := CallForDuration_overrun_not_retried nsClock id doubleOfBool (CInt.ofInt 50)
    (alwaysFails 60000000) (by rfl) (by decide) (by decide)
  ⟨h.1, h.2.1, h.2.2.1⟩

/-- C7 (the code at the failing input): with a timeout of 2000 ms and an operation that always
fails after 3 ms, invocation number 100 returns a falsy result 300 ms after the start; 100
invocations, the value of `max_calls`, have then been made, yet another attempt follows. -/
theorem CallForDuration_retries_at_ceiling :
    (CallForDuration nsClock id doubleOfBool (CInt.ofInt 2000) (alwaysFails 3000000)).log[99]? =
      some ⟨297000000, 300000000, false⟩ ∧
    id (alwaysFails 3000000 99).ret = false ∧
    99 + 1 = max_calls ∧
    99 + 1 <
      (CallForDuration nsClock id doubleOfBool (CInt.ofInt 2000) (alwaysFails 3000000)).calls := by
  rw [run_2000_fails_3ms, outcomeAt_calls]
  refine ⟨?_, rfl, rfl, by decide⟩
  rw [outcomeAt_log _ _ _ max_calls 99 (by decide)]
  have hp : pauseAfter nsClock (alwaysFails 3000000) 0 = 0 := by decide
  have hs : tstartOf nsClock (alwaysFails 3000000) 99 = 297000000 := by
    rw [tstartOf_alwaysFails, hp]
  have he : tendOf nsClock (alwaysFails 3000000) 99 = 300000000 := by
    rw [tendOf, hs]; rfl
  have hc : callTimeMs nsClock (alwaysFails 3000000) 99 = 3 := by decide
  rw [hs, he, hc]
  simp [max_calls]

/-- C8 as stated fails: with a timeout of 50 ms, a first call that fails after `3 * 10^15` ns
(3000000000 ms, far more than 2 ms) is followed by a pause and a second attempt, because its
latency narrowed to `int` (less than 2, shown as negative) is what the loop compares with 2. -/
theorem CallForDuration_pause_counterexample :
    (CallForDuration nsClock id doubleOfBool (CInt.ofInt 50)
        (alwaysFails 3000000000000000)).log[0]? = some ⟨0, 3000000000000000, true⟩ ∧
    (CallForDuration nsClock id doubleOfBool (CInt.ofInt 50)
        (alwaysFails 3000000000000000)).calls = 2 ∧
    ¬ ((((3000000000000000 - 0) / nsClock.perMs : Nat) : Int) < 2) ∧
    callTimeMs nsClock (alwaysFails 3000000000000000) 0 = -1294967296 := by
  rw [run_50_fails_long, outcomeAt_calls, outcomeAt_log _ _ _ 1 0 (by decide)]
  refine ⟨by decide, rfl, by decide, by decide⟩

/-- C8 amended: for an invocation `k` (logged as `a`) whose latency is at most `2^31 - 1` ms,
the iteration ends with `sleep(1)` if and only if another attempt follows and the latency of
invocation `k` is below 2 ms; so such a call of 2 ms or longer is retried with no pause.  For
every invocation: a pause is taken only when another attempt follows (never after the final
invocation), the next attempt starts when the call ended plus the pause when one was taken, and
the logged latency is the latency of the operation. -/
theorem CallForDuration_pause_iff {R D : Type} (c : Clock) (truthy : R → Bool)
    (toDouble : R → D) (T : CInt) (func : Nat → Call R) (k : Nat) (a : Attempt)
    (hk : (CallForDuration c truthy toDouble T func).log[k]? = some a) :
    ((((a.tend - a.tstart) / c.perMs : Nat) : Int) ≤ 2147483647 →
      (a.slept = true ↔
        (k + 1 < (CallForDuration c truthy toDouble T func).calls ∧
          (((a.tend - a.tstart) / c.perMs : Nat) : Int) < 2))) ∧
    (a.slept = true → k + 1 < (CallForDuration c truthy toDouble T func).calls) ∧
    (∀ b, (CallForDuration c truthy toDouble T func).log[k + 1]? = some b →
      b.tstart = a.tend + (if a.slept = true then c.sleep1 else 0)) ∧
    a.tend = a.tstart + (func k).ticks := by
  obtain ⟨K, _, _, _, heq⟩ := exists_stop c truthy toDouble T func
  rw [heq] at hk ⊢
  obtain ⟨_, ha⟩ := outcomeAt_log_inv c toDouble func K k a hk
  have hlat : (((a.tend - a.tstart) / c.perMs : Nat) : Int) = callMs c func k := by
    rw [ha]; simp only [tendOf, Nat.add_sub_cancel_left]; rfl
  rw [outcomeAt_calls, hlat]
  refine ⟨?_, ?_, ?_, ?_⟩
  · intro hrange
    rw [ha, callTimeMs_eq c func k hrange]
    simp only [decide_eq_true_eq]
    constructor
    · rintro ⟨h1, h2⟩; exact ⟨by omega, h2⟩
    · rintro ⟨h1, h2⟩; exact ⟨by omega, h2⟩
  · rw [ha]
    simp only [decide_eq_true_eq]
    rintro ⟨h1, _⟩
    omega
  · intro b hb
    obtain ⟨hb1, hb2⟩ := outcomeAt_log_inv c toDouble func K (k + 1) b hb
    rw [ha, hb2]
    simp only [decide_eq_true_eq, tstartOf, tendOf, pauseAfter]
    have hlt : k < K := by omega
    by_cases hs : callTimeMs c func k < 2
    · rw [if_pos hs, if_pos ⟨hlt, hs⟩]
    · rw [if_neg hs, if_neg (fun h => hs h.2)]
  · rw [ha]; rfl

/-- Witness for C8 amended: timeout 1800 ms, every call fails after half a millisecond.  The
first iteration ends with a pause, as a second attempt follows a call measured below 2 ms. -/
theorem CallForDuration_pause_iff_witness :
    ((true = true) ↔
      (0 + 1 < (CallForDuration nsClock id doubleOfBool (CInt.ofInt 1800)
          (alwaysFails 500000)).calls ∧
        (((500000 - 0) / nsClock.perMs : Nat) : Int) < 2)) :=
  (CallForDuration_pause_iff nsClock id doubleOfBool (CInt.ofInt 1800) (alwaysFails 500000) 0
    ⟨0, 500000, true⟩
    (by
      rw [CallForDuration_eq_outcomeAt nsClock id doubleOfBool (CInt.ofInt 1800)
        (alwaysFails 500000) 2 (by decide) (by decide), outcomeAt_log _ _ _ 2 0 (by decide)]
      decide)).1 (by decide)

/-- C9: for every timeout, negative and zero included, and every operation, `CallForDuration`
(a total function: the loop terminates) invokes the operation at least once and at most 101 times.
The bound 101 is attained by every operation that always returns falsy, in particular one whose
calls all take at least 2 ms, once the timeout covers the elapsed milliseconds after the 100th
invocation plus the largest latency measured until then. -/
theorem CallForDuration_calls_bounds {R D : Type} (c : Clock) (truthy : R → Bool)
    (toDouble : R → D) (T : CInt) (func : Nat → Call R) :
    (1 ≤ (CallForDuration c truthy toDouble T func).calls ∧
      (CallForDuration c truthy toDouble T func).calls ≤ 101) ∧
    ((∀ k, truthy (func k).ret = false) → (∀ k, 2 ≤ callMs c func k) →
      totalMs c func 99 + maxCallMs c func 100 ≤ T.val →
      (CallForDuration c truthy toDouble T func).calls = 101) := by
  constructor
  · obtain ⟨K, hK, _, _, heq⟩ := exists_stop c truthy toDouble T func
    rw [heq, outcomeAt_calls]
    simp only [max_calls] at hK
    omega
  · intro hfalsy _ hT
    exact calls_of_large_timeout c truthy toDouble T func hfalsy hT

/-- Witness for C9: with the default timeout of 1800 ms, an operation that always fails after
2 ms is invoked 101 times. -/
theorem CallForDuration_calls_bounds_witness :
    (CallForDuration nsClock id doubleOfBool (CInt.ofInt 1800) (alwaysFails 2000000)).calls
      = 101 :=
  (CallForDuration_calls_bounds nsClock id doubleOfBool (CInt.ofInt 1800)
      (alwaysFails 2000000)).2
    (fun _ => rfl) (fun _ => (by decide : 2 ≤ callMs nsClock (alwaysFails 2000000) 0))
    (by
      have hp : pauseAfter nsClock (alwaysFails 2000000) 0 = 0 := by decide
      rw [totalMs_alwaysFails, maxCallMs_alwaysFails, hp]
      decide)

/-- C10 as stated fails: with a timeout of 50 ms (`T ≥ 0`) and every call failing after
`3 * 10^15` ns (a latency of at least 2 ms), the first iteration ends with a pause and the
second attempt starts `3000001 * 10^9` ns after the first, later than 50 ms; the return comes
`6000001 * 10^9` ns after the start, later than 50 ms plus the latency of the final call. -/
theorem CallForDuration_starts_counterexample :
    (0 : Int) ≤ (CInt.ofInt 50).val ∧
    (∀ k, 2 ≤ callMs nsClock (alwaysFails 3000000000000000) k) ∧
    (CallForDuration nsClock id doubleOfBool (CInt.ofInt 50)
        (alwaysFails 3000000000000000)).log =
      [⟨0, 3000000000000000, true⟩, ⟨3000001000000000, 6000001000000000, false⟩] ∧
    ¬ ((3000001000000000 : Int) ≤ (CInt.ofInt 50).val * (nsClock.perMs : Int)) ∧
    (CallForDuration nsClock id doubleOfBool (CInt.ofInt 50)
        (alwaysFails 3000000000000000)).elapsed = 6000001000000000 ∧
    ¬ ((6000001000000000 : Int) ≤
        (CInt.ofInt 50).val * (nsClock.perMs : Int) +
          ((alwaysFails 3000000000000000 1).ticks : Int)) := by
  rw [run_50_fails_long]
  refine ⟨by decide, fun _ => (by decide : 2 ≤ callMs nsClock (alwaysFails 3000000000000000) 0),
    by decide, by decide, by decide, by decide⟩

/-- C10 amended: for every timeout `T ≥ 0` and every operation all of whose calls have a latency
of at least 2 ms and at most `2^31 - 1` ms, no pause is taken, every attempt starts at an elapsed
time of at most `T` milliseconds, and the elapsed time at the return is at most `T` milliseconds
plus the latency of the final call (whether the result is truthy or falsy). -/
theorem CallForDuration_starts_within_timeout {R D : Type} (c : Clock) (truthy : R → Bool)
    (toDouble : R → D) (T : CInt) (func : Nat → Call R) (hT : 0 ≤ T.val)
    (hlat : ∀ k, 2 ≤ callMs c func k ∧ callMs c func k ≤ 2147483647) :
    (∀ a, a ∈ (CallForDuration c truthy toDouble T func).log →
      a.slept = false ∧ (a.tstart : Int) ≤ T.val * (c.perMs : Int)) ∧
    ((CallForDuration c truthy toDouble T func).elapsed : Int) ≤
      T.val * (c.perMs : Int) +
        ((func ((CallForDuration c truthy toDouble T func).calls - 1)).ticks : Int) := by
  obtain ⟨K, _, hgo, _, heq⟩ := exists_stop c truthy toDouble T func
  rw [heq, outcomeAt_calls, outcomeAt_elapsed]
  have hstart := starts_within c truthy T func hT hlat K hgo
  constructor
  · intro a ha
    obtain ⟨k, hk⟩ := List.mem_iff_getElem?.1 ha
    obtain ⟨hkK, hrec⟩ := outcomeAt_log_inv c toDouble func K k a hk
    rw [hrec]
    refine ⟨?_, hstart k hkK⟩
    have := hlat k
    rw [callTimeMs_eq c func k this.2]
    simp only [decide_eq_false_iff_not]
    omega
  · have := hstart K (le_refl _)
    simp only [tendOf, Nat.add_sub_cancel]
    push_cast
    omega

/-- Witness for C10 amended: timeout 10 ms, every call fails after 3 ms; the run returns no
later than 10 ms plus 3 ms after it started. -/
theorem CallForDuration_starts_within_timeout_witness :
    ((CallForDuration nsClock id doubleOfBool (CInt.ofInt 10) (alwaysFails 3000000)).elapsed
        : Int) ≤
      (CInt.ofInt 10).val * (nsClock.perMs : Int) +
        ((alwaysFails 3000000 ((CallForDuration nsClock id doubleOfBool (CInt.ofInt 10)
          (alwaysFails 3000000)).calls - 1)).ticks : Int) :=
  (CallForDuration_starts_within_timeout nsClock id doubleOfBool (CInt.ofInt 10)
    (alwaysFails 3000000) (by decide)
    (fun _ => (by decide : 2 ≤ callMs nsClock (alwaysFails 3000000) 0 ∧
      callMs nsClock (alwaysFails 3000000) 0 ≤ 2147483647))).2

/-! ## Claim about `GetSlowControlValue` -/

/-- C6 (the code at the failing input): for a name that is not registered the expression
`(*sc_vars)[name]->GetValue<T>()` applies `->` to the missing entry and has no defined result;
no value, and so no error value, is returned to the caller.  For a registered name the value of
the entry is returned. -/
theorem GetSlowControlValue_missing_name :
    GetSlowControlValue pumpRegistry (fun v => v) "valve_state" = Eval.undefined ∧
    (∀ (E T : Type) (sc_vars : String → Option E) (GetValue : E → T) (name : String),
      sc_vars name = none → ∀ v, GetSlowControlValue sc_vars GetValue name ≠ Eval.value v) ∧
    GetSlowControlValue pumpRegistry (fun v => v) "pump_speed" = Eval.value 0 := by
  refine ⟨by decide, ?_, by decide⟩
  intro E T sc_vars GetValue name hnone v
  simp [GetSlowControlValue, arrow, hnone]

end Services
